import Mathlib

/-!
Verification of the moving-average training-data pipeline
(`notebooks/ml/ma/ma.py`): per-team windowed statistics (`compute_ma`),
home/away perspective merge (`merge_ma`), and tournament-date tagging
(`add_tournament_flag`).

Metric values are modelled as rationals; pandas nulls (NaN) as `Option`.
A per-team metric column is a `List ℚ` (sorted by date upstream), and a
position in the series is a 0-based index.
-/

namespace MA

/-- Arithmetic mean of a list of rationals (sum divided by length). -/
def listMean (l : List ℚ) : ℚ := l.sum / l.length

/-- Value of `Series.rolling(window=span).mean()` at position `i`:
the mean of the `span` values ending at `i`, null while fewer than
`span` values exist (pandas default `min_periods = window`). -/
def rollingMean (span : ℕ) (v : List ℚ) (i : ℕ) : Option ℚ :=
  if span ≤ i + 1 then some (listMean ((v.take (i + 1)).drop (i + 1 - span))) else none

/-- Value of `Series.expanding(min_periods=span).mean()` at position `i`:
the mean of all values up to and including `i`, null while fewer than
`span` values have been observed. -/
def expandingMean (span : ℕ) (v : List ℚ) (i : ℕ) : Option ℚ :=
  if span ≤ i + 1 then some (listMean (v.take (i + 1))) else none

/-- Value of `Series.ewm(span=span, adjust=False).mean()` at position `i`:
the recursive exponentially weighted mean with smoothing factor
`α = 2/(span+1)`. -/
def ewmRec (span : ℕ) (v : List ℚ) : ℕ → ℚ
  | 0 => v.getD 0 0
  | i + 1 => (2 / ((span : ℚ) + 1)) * v.getD (i + 1) 0
      + (1 - 2 / ((span : ℚ) + 1)) * ewmRec span v i

/-- `Series.shift(1)`: the value attached to position `i` becomes the
value that was at position `i - 1`; position 0 becomes null. -/
def shift1 (f : ℕ → Option ℚ) : ℕ → Option ℚ
  | 0 => none
  | i + 1 => f i

/-- The `<col>_sma` column of `compute_ma`: rolling mean, then `shift(1)`. -/
def sma (span : ℕ) (v : List ℚ) : ℕ → Option ℚ := shift1 (rollingMean span v)

/-- The `<col>_cma` column of `compute_ma`: expanding mean, then `shift(1)`. -/
def cma (span : ℕ) (v : List ℚ) : ℕ → Option ℚ := shift1 (expandingMean span v)

/-- The `<col>_ema` column of `compute_ma`: exponentially weighted mean,
then `shift(1)`. -/
def ema (span : ℕ) (v : List ℚ) : ℕ → Option ℚ :=
  shift1 (fun i => some (ewmRec span v i))

/-- Mean of the `span` metric values at positions `i-span .. i-1`, written
as the spec states it (indexing into the series). -/
def smaSpec (span : ℕ) (v : List ℚ) (i : ℕ) : ℚ :=
  listMean ((List.range span).map fun j => v.getD (i - span + j) 0)

/-- Mean of all metric values at positions `0 .. i-1`, written as the spec
states it. -/
def cmaSpec (v : List ℚ) (i : ℕ) : ℚ :=
  listMean ((List.range i).map fun j => v.getD j 0)

/-- The spec's EMA recursion: `E[0] = value[0]`,
`E[i] = α·value[i] + (1-α)·E[i-1]` with `α = 2/(span+1)`. -/
def emaSpecRec (span : ℕ) (v : List ℚ) : ℕ → ℚ
  | 0 => v.getD 0 0
  | i + 1 => (2 / ((span : ℚ) + 1)) * v.getD (i + 1) 0
      + (1 - 2 / ((span : ℚ) + 1)) * emaSpecRec span v i

lemma take_drop_eq_range_map (v : List ℚ) (a b : ℕ) (h : a + b ≤ v.length) :
    (v.take (a + b)).drop a = (List.range b).map fun j => v.getD (a + j) 0 := by
  apply List.ext_getElem?
  intro n
  by_cases hn : n < b
  · have h1 : a + n < a + b := by omega
    have h2 : a + n < v.length := by omega
    rw [List.getElem?_drop, List.getElem?_take, if_pos h1, List.getElem?_map,
      List.getElem?_range hn]
    simp [List.getElem?_eq_getElem h2, List.getD_eq_getElem?_getD,
      List.getElem?_eq_getElem h2]
  · have h1 : ((v.take (a + b)).drop a).length ≤ n := by
      simp only [List.length_drop, List.length_take]
      omega
    have h2 : ((List.range b).map fun j => v.getD (a + j) 0).length ≤ n := by
      simp only [List.length_map, List.length_range]
      omega
    rw [List.getElem?_eq_none h1, List.getElem?_eq_none h2]

lemma take_eq_range_map (v : List ℚ) (i : ℕ) (h : i ≤ v.length) :
    v.take i = (List.range i).map fun j => v.getD j 0 := by
  have key := take_drop_eq_range_map v 0 i (by omega)
  simpa using key

lemma getD_eq_of_take_eq (v w : List ℚ) (i k : ℕ) (hk : k < i)
    (h : v.take i = w.take i) : v.getD k 0 = w.getD k 0 := by
  have hv : v[k]? = w[k]? := by
    have h2 := congrArg (fun l => l[k]?) h
    simpa [List.getElem?_take, if_pos hk] using h2
  simp [List.getD_eq_getElem?_getD, hv]

lemma ewmRec_congr (span : ℕ) (v w : List ℚ) (n : ℕ)
    (h : ∀ k, k ≤ n → v.getD k 0 = w.getD k 0) :
    ewmRec span v n = ewmRec span w n := by
  induction n with
  | zero =>
    simp only [ewmRec]
    exact h 0 (le_refl 0)
  | succ m ih =>
    simp only [ewmRec]
    rw [h (m + 1) (le_refl _), ih fun k hk => h k (by omega)]

lemma ewmRec_eq_emaSpecRec (span : ℕ) (v : List ℚ) (n : ℕ) :
    ewmRec span v n = emaSpecRec span v n := by
  induction n with
  | zero => rfl
  | succ m ih => simp [ewmRec, emaSpecRec, ih]

/-- C1. Lag (no-look-ahead) invariant of `compute_ma`: the derived `_sma`,
`_cma` and `_ema` values attached to position `i` depend only on the metric
values at positions `0 .. i-1`. Two-run statement: if two metric columns
agree on their first `i` entries, the derived values at position `i`
coincide, whatever the entries at positions `≥ i` are. -/
theorem lag_invariant (span : ℕ) (v w : List ℚ) (i : ℕ)
    (h : v.take i = w.take i) :
    sma span v i = sma span w i ∧ cma span v i = cma span w i ∧
      ema span v i = ema span w i := by
  refine ⟨?_, ?_, ?_⟩
  · cases i with
    | zero => rfl
    | succ j => simp only [sma, shift1, rollingMean]; rw [h]
  · cases i with
    | zero => rfl
    | succ j => simp only [cma, shift1, expandingMean]; rw [h]
  · cases i with
    | zero => rfl
    | succ j =>
      simp only [ema, shift1]
      exact congrArg some (ewmRec_congr span v w j fun k hk =>
        getD_eq_of_take_eq v w (j + 1) k (by omega) h)

/-- Witness for C1 at the concrete input `v = [1,2,5]`, `w = [1,2,9]`,
`i = 2`, `span = 1`. -/
theorem lag_invariant_witness :
    ([(1 : ℚ), 2, 5].take 2 = [(1 : ℚ), 2, 9].take 2) ∧
      sma 1 [(1 : ℚ), 2, 5] 2 = sma 1 [(1 : ℚ), 2, 9] 2 :=
  ⟨by decide, (lag_invariant 1 [(1 : ℚ), 2, 5] [(1 : ℚ), 2, 9] 2 (by decide)).1⟩

/-- C2. SMA correctness: the lag-shifted `_sma` value at position `i` is
null when `i < span`, and for `i ≥ span` equals the arithmetic mean of the
metric values at positions `i-span .. i-1`. -/
theorem sma_correct (span : ℕ) (v : List ℚ) (i : ℕ)
    (hspan : 1 ≤ span) (hi : i ≤ v.length) :
    (i < span → sma span v i = none) ∧
      (span ≤ i → sma span v i = some (smaSpec span v i)) := by
  constructor
  · intro h
    cases i with
    | zero => rfl
    | succ j =>
      simp only [sma, shift1, rollingMean]
      rw [if_neg (by omega)]
  · intro h
    cases i with
    | zero => omega
    | succ j =>
      have key := take_drop_eq_range_map v (j + 1 - span) span (by omega)
      have e : (j + 1 - span) + span = j + 1 := by omega
      rw [e] at key
      simp only [sma, shift1, rollingMean, if_pos (by omega : span ≤ j + 1),
        key, smaSpec]

/-- Witness for C2 at `span = 2`, `v = [10,20,30]`, `i = 2`. -/
theorem sma_correct_witness :
    sma 2 [(10 : ℚ), 20, 30] 2 = some (smaSpec 2 [(10 : ℚ), 20, 30] 2) :=
  (sma_correct 2 [(10 : ℚ), 20, 30] 2 (by decide) (by decide)).2 (by decide)

/-- C3. CMA correctness: the lag-shifted `_cma` value at position `i` is
null when `i < span`, and for `i ≥ span` equals the arithmetic mean of the
metric values at positions `0 .. i-1`. -/
theorem cma_correct (span : ℕ) (v : List ℚ) (i : ℕ)
    (hspan : 1 ≤ span) (hi : i ≤ v.length) :
    (i < span → cma span v i = none) ∧
      (span ≤ i → cma span v i = some (cmaSpec v i)) := by
  constructor
  · intro h
    cases i with
    | zero => rfl
    | succ j =>
      simp only [cma, shift1, expandingMean]
      rw [if_neg (by omega)]
  · intro h
    cases i with
    | zero => omega
    | succ j =>
      have key := take_eq_range_map v (j + 1) (by omega)
      simp only [cma, shift1, expandingMean, if_pos (by omega : span ≤ j + 1),
        key, cmaSpec]

/-- Witness for C3 at `span = 2`, `v = [10,20,30]`, `i = 2`. -/
theorem cma_correct_witness :
    cma 2 [(10 : ℚ), 20, 30] 2 = some (cmaSpec [(10 : ℚ), 20, 30] 2) :=
  (cma_correct 2 [(10 : ℚ), 20, 30] 2 (by decide) (by decide)).2 (by decide)

/-- C4. EMA correctness: with `E` the spec recursion `E[0] = value[0]`,
`E[i] = α·value[i] + (1-α)·E[i-1]`, `α = 2/(span+1)`, the lag-shifted
`_ema` value is null at position 0 and equals `E[i-1]` at every position
`i ≥ 1` of the series. -/
theorem ema_correct (span : ℕ) (v : List ℚ) (i : ℕ) (hi : i < v.length) :
    (i = 0 → ema span v i = none) ∧
      (1 ≤ i → ema span v i = some (emaSpecRec span v (i - 1))) := by
  constructor
  · intro h
    subst h
    rfl
  · intro h
    cases i with
    | zero => omega
    | succ j =>
      simp only [ema, shift1, Nat.add_sub_cancel]
      exact congrArg some (ewmRec_eq_emaSpecRec span v j)

/-- Witness for C4 at `span = 2`, `v = [10,20,30]`, `i = 1`. -/
theorem ema_correct_witness :
    ema 2 [(10 : ℚ), 20, 30] 1 = some (emaSpecRec 2 [(10 : ℚ), 20, 30] 0) :=
  (ema_correct 2 [(10 : ℚ), 20, 30] 1 (by decide)).2 (by decide)

/-- Model of pandas `drop_duplicates()` (keep the first occurrence of each
duplicated row). -/
def dedupFirst {α : Type} [DecidableEq α] (l : List α) : List α :=
  l.foldl (fun acc r => if r ∈ acc then acc else acc ++ [r]) []

/-- A derived record of `compute_ma` for a series with one metric column
`val`: the identifier column `date`, the raw metric value, and the three
derived columns (null-able, since `shift(1)` and the warm-up windows
produce NaN). -/
structure DRow where
  date : ℚ
  val : ℚ
  val_sma : Option ℚ
  val_cma : Option ℚ
  val_ema : Option ℚ
deriving DecidableEq

/-- Predicate used by `dropna()` on a derived record: the row is kept iff
no column is null. Here `date` and `val` are non-null by construction, so
only the three derived columns can hold a null. -/
def rowOk (r : DRow) : Bool :=
  r.val_sma.isSome && r.val_cma.isSome && r.val_ema.isSome

/-- The body of `compute_ma` for one team and one metric column: sort the
records ascending by date, attach the three lag-shifted summaries, then
`dropna()` and `drop_duplicates()`. Input rows are `(date, val)` pairs. -/
def computeSeries (span : ℕ) (rows : List (ℚ × ℚ)) : List DRow :=
  let sorted := List.insertionSort (fun a b : ℚ × ℚ => a.1 ≤ b.1) rows
  let vals := sorted.map Prod.snd
  let derived := (List.range sorted.length).map fun i =>
    { date := (sorted.getD i (0, 0)).1, val := (sorted.getD i (0, 0)).2,
      val_sma := sma span vals i, val_cma := cma span vals i,
      val_ema := ema span vals i : DRow }
  dedupFirst (derived.filter rowOk)

/-- C5 counterexample. On the spec's worked example
`[(1,10),(2,20),(3,30),(4,40)]` with `span = 2`, the cleaned output of the
windowed-statistics stage still contains the row for date 3, and its SMA
is already defined there (with value 15): the claim that SMA is first
defined at the date-4 row and that every earlier row is dropped is false. -/
theorem worked_example_claim_false :
    (computeSeries 2 [(1, 10), (2, 20), (3, 30), (4, 40)]).map DRow.date
        = [3, 4] ∧
      (computeSeries 2 [(1, 10), (2, 20), (3, 30), (4, 40)]).map DRow.val_sma
        = [some 15, some 25] := by
  norm_num [computeSeries, List.range_succ, listMean, sma, cma, ema, shift1,
    rollingMean, expandingMean, ewmRec, dedupFirst, rowOk]

/-- C5 amended. On the worked example with `span = 2`, the rows for dates
1 and 2 are dropped as containing nulls; SMA is first defined at the
date-3 row with value 15 (mean of the values from dates 1 and 2), and the
date-4 row carries SMA 25 (mean of the values from dates 2 and 3), CMA 20
and EMA 230/9. -/
theorem worked_example_amended :
    computeSeries 2 [(1, 10), (2, 20), (3, 30), (4, 40)] =
      [⟨3, 30, some 15, some 15, some (50 / 3)⟩,
        ⟨4, 40, some 25, some 20, some (230 / 9)⟩] := by
  norm_num [computeSeries, List.range_succ, listMean, sma, cma, ema, shift1,
    rollingMean, expandingMean, ewmRec, dedupFirst, rowOk]

/-- Model of the `dropna()` call of `compute_ma` and `merge_ma`: a record
is a list of null-able column values, and a record is removed iff any of
its columns is null. -/
def dropna (t : List (List (Option ℚ))) : List (List (Option ℚ)) :=
  t.filter fun r => r.all fun x => x.isSome

/-- The cleaning step at the end of `compute_ma`:
`dropna()` followed by `drop_duplicates()`. -/
def compute_ma_clean (t : List (List (Option ℚ))) : List (List (Option ℚ)) :=
  dedupFirst (dropna t)

/-- The cleaning step applied to each perspective table inside `merge_ma`:
`dropna()` followed by `drop_duplicates()`. -/
def merge_side_clean (t : List (List (Option ℚ))) : List (List (Option ℚ)) :=
  dedupFirst (dropna t)

lemma mem_acc_or_mem_of_mem_foldl {α : Type} [DecidableEq α] (x : α) :
    ∀ (l acc : List α),
      x ∈ l.foldl (fun acc r => if r ∈ acc then acc else acc ++ [r]) acc →
        x ∈ acc ∨ x ∈ l := by
  intro l
  induction l with
  | nil => exact fun acc h => Or.inl h
  | cons r rs ih =>
    intro acc h
    simp only [List.foldl_cons] at h
    rcases ih _ h with h' | h'
    · by_cases hr : r ∈ acc
      · rw [if_pos hr] at h'
        exact Or.inl h'
      · rw [if_neg hr] at h'
        rcases List.mem_append.mp h' with h'' | h''
        · exact Or.inl h''
        · simp only [List.mem_singleton] at h''
          subst h''
          exact Or.inr (List.mem_cons_self _ _)
    · exact Or.inr (List.mem_cons_of_mem _ h')

lemma mem_of_mem_dedupFirst {α : Type} [DecidableEq α] {x : α} {l : List α}
    (h : x ∈ dedupFirst l) : x ∈ l := by
  rcases mem_acc_or_mem_of_mem_foldl x l [] h with h' | h'
  · simp at h'
  · exact h'

/-- C10. The cleaning steps of `compute_ma` and of each side of `merge_ma`
remove every record containing a null in any column (identifier, raw
metric and derived columns alike): every output record is entirely
null-free, and a record with a null value contributes no output row. -/
theorem clean_removes_nulls (t : List (List (Option ℚ))) :
    (∀ r ∈ compute_ma_clean t, none ∉ r) ∧
      (∀ r ∈ t, none ∈ r → r ∉ compute_ma_clean t) ∧
      (∀ r ∈ merge_side_clean t, none ∉ r) ∧
      (∀ r ∈ t, none ∈ r → r ∉ merge_side_clean t) := by
  have key1 : ∀ r ∈ dedupFirst (dropna t), none ∉ r := by
    intro r hr hnone
    have hmem := mem_of_mem_dedupFirst hr
    have hall := (List.mem_filter.mp hmem).2
    rw [List.all_eq_true] at hall
    have := hall none hnone
    simp at this
  have key2 : ∀ r ∈ t, none ∈ r → r ∉ dedupFirst (dropna t) := by
    intro r _ hnone hr
    exact key1 r hr hnone
  exact ⟨key1, key2, key1, key2⟩

/-- Witness for C10: a record with a null raw value is absent from the
cleaned output. -/
theorem clean_removes_nulls_witness :
    [some (1 : ℚ), none] ∉
      compute_ma_clean [[some (1 : ℚ), none], [some 2, some 3]] :=
  (clean_removes_nulls [[some (1 : ℚ), none], [some 2, some 3]]).2.1
    [some (1 : ℚ), none] (by simp) (by simp)

/-- The identifier-key values of a game row: the columns `merge_ma` joins
on (`identifiers`), which must uniquely identify a game — date plus the
two participating teams (plus any game id, absorbed here into the team
strings). -/
structure GKey where
  date : ℤ
  home : String
  away : String
deriving DecidableEq

/-- Inner equi-join of `pd.merge(away_table, home_table, on=identifiers)`:
every pairing of an away-table row and a home-table row with equal key
values produces one output row carrying the key and both payloads. -/
def innerJoin {α β : Type} (A : List (GKey × α)) (H : List (GKey × β)) :
    List (GKey × α × β) :=
  A.flatMap fun a => (H.filter fun h => decide (h.1 = a.1)).map fun h => (a.1, a.2, h.2)

instance {α β : Type} :
    DecidableRel fun (r s : GKey × α × β) => r.1.date ≤ s.1.date :=
  fun _ _ => inferInstanceAs (Decidable (_ ≤ _))

instance {α β : Type} :
    IsTotal (GKey × α × β) fun r s => r.1.date ≤ s.1.date :=
  ⟨fun a b => le_total a.1.date b.1.date⟩

instance {α β : Type} :
    IsTrans (GKey × α × β) fun r s => r.1.date ≤ s.1.date :=
  ⟨fun _ _ _ hab hbc => le_trans hab hbc⟩

/-- The final step of `merge_ma`: join the concatenated away-perspective
table with the concatenated home-perspective table on the identifier key,
then `sort_values(by="date")` and `reset_index(drop=True)` (re-indexing is
implicit in the list representation). -/
def merge_ma {α β : Type} (A : List (GKey × α)) (H : List (GKey × β)) :
    List (GKey × α × β) :=
  List.insertionSort (fun r s => r.1.date ≤ s.1.date) (innerJoin A H)

lemma mem_innerJoin_iff {α β : Type} (A : List (GKey × α)) (H : List (GKey × β))
    (r : GKey × α × β) :
    r ∈ innerJoin A H ↔ (r.1, r.2.1) ∈ A ∧ (r.1, r.2.2) ∈ H := by
  obtain ⟨k, x, y⟩ := r
  simp only [innerJoin, List.mem_flatMap, List.mem_map, List.mem_filter,
    decide_eq_true_eq]
  constructor
  · rintro ⟨⟨a1, a2⟩, ha, ⟨h1, h2⟩, ⟨hh, hk⟩, heq⟩
    injection heq with e1 e2
    injection e2 with e2 e3
    subst e1
    subst e2
    subst e3
    subst hk
    exact ⟨ha, hh⟩
  · rintro ⟨hA, hH⟩
    exact ⟨(k, x), hA, (k, y), ⟨hH, rfl⟩, rfl⟩

/-- C6. Merge completeness and ordering: assuming each identifier key
occurs at most once per side, a row is in the output of `merge_ma` exactly
when the away table and the home table each contain a record with that
row's key and the row combines their payloads; the matching records are
unique; and the output is sorted ascending by date (positions in the
output list are its contiguous 0-based index). Keys present on only one
side produce no row, by the left-to-right direction of the equivalence. -/
theorem merge_ma_complete {α β : Type} (A : List (GKey × α)) (H : List (GKey × β))
    (hA : (A.map Prod.fst).Nodup) (hH : (H.map Prod.fst).Nodup) :
    (∀ r : GKey × α × β,
        r ∈ merge_ma A H ↔ (r.1, r.2.1) ∈ A ∧ (r.1, r.2.2) ∈ H) ∧
      (∀ r ∈ merge_ma A H, ∀ a ∈ A, a.1 = r.1 → a = (r.1, r.2.1)) ∧
      (∀ r ∈ merge_ma A H, ∀ h ∈ H, h.1 = r.1 → h = (r.1, r.2.2)) ∧
      (merge_ma A H).Pairwise fun r s => r.1.date ≤ s.1.date := by
  have hmem : ∀ r : GKey × α × β, r ∈ merge_ma A H ↔ r ∈ innerJoin A H :=
    fun r => (List.perm_insertionSort _ _).mem_iff
  refine ⟨fun r => (hmem r).trans (mem_innerJoin_iff A H r), ?_, ?_, ?_⟩
  · intro r hr a ha hk
    have h1 := ((mem_innerJoin_iff A H r).mp ((hmem r).mp hr)).1
    exact List.inj_on_of_nodup_map hA ha h1 hk
  · intro r hr h hh hk
    have h1 := ((mem_innerJoin_iff A H r).mp ((hmem r).mp hr)).2
    exact List.inj_on_of_nodup_map hH hh h1 hk
  · exact List.sorted_insertionSort _ _

/-- Witness for C6: two single-row perspective tables sharing one key
produce exactly that matchup row. -/
theorem merge_ma_complete_witness :
    ((⟨1, "H", "A"⟩, 10, 20) : GKey × ℕ × ℕ) ∈
      merge_ma [((⟨1, "H", "A"⟩ : GKey), 10)] [((⟨1, "H", "A"⟩ : GKey), 20)] :=
  ((merge_ma_complete [((⟨1, "H", "A"⟩ : GKey), 10)]
        [((⟨1, "H", "A"⟩ : GKey), 20)] (by decide) (by decide)).1
      ((⟨1, "H", "A"⟩, 10, 20) : GKey × ℕ × ℕ)).mpr ⟨by decide, by decide⟩

/-- C7 evidence. When the away table holds two rows with the same
identifier key, `merge_ma` does not report a data-integrity error: it
silently emits one output row per matching away/home pair (the per-key
cross product). The claim that the merge stage fails on duplicate keys is
what the spec requires, but the code has no such check. -/
theorem merge_duplicate_key_output :
    merge_ma [((⟨1, "H", "A"⟩ : GKey), (1 : ℕ)), (⟨1, "H", "A"⟩, 2)]
        [((⟨1, "H", "A"⟩ : GKey), (3 : ℕ))] =
      [(⟨1, "H", "A"⟩, 1, 3), (⟨1, "H", "A"⟩, 2, 3)] := by
  decide

/-- A parsed `datetime.datetime` value at midnight: the components that
participate in Python's tuple-lexicographic datetime comparison for the
dates this pipeline handles. -/
structure PyDate where
  year : ℕ
  month : ℕ
  day : ℕ
deriving DecidableEq

/-- Python's `<=` on `datetime` values: lexicographic comparison of
(year, month, day). -/
def PyDate.le (a b : PyDate) : Bool :=
  if a.year ≠ b.year then decide (a.year < b.year)
  else if a.month ≠ b.month then decide (a.month < b.month)
  else decide (a.day ≤ b.day)

/-- Calendar order on dates as the spec reads it, stated directly as a
proposition. -/
def dateLE (a b : PyDate) : Prop :=
  a.year < b.year ∨ (a.year = b.year ∧
    (a.month < b.month ∨ (a.month = b.month ∧ a.day ≤ b.day)))

instance (a b : PyDate) : Decidable (dateLE a b) := by
  unfold dateLE
  infer_instance

/-- The hardcoded NCAA tournament windows of `add_tournament_flag`. -/
def ncaa_dates : List (PyDate × PyDate) :=
  [(⟨2010, 3, 16⟩, ⟨2010, 4, 5⟩), (⟨2011, 3, 15⟩, ⟨2011, 4, 4⟩),
    (⟨2012, 3, 13⟩, ⟨2012, 4, 2⟩), (⟨2013, 3, 19⟩, ⟨2013, 4, 8⟩),
    (⟨2014, 3, 18⟩, ⟨2014, 4, 7⟩), (⟨2015, 3, 17⟩, ⟨2015, 4, 6⟩),
    (⟨2016, 3, 15⟩, ⟨2016, 4, 4⟩), (⟨2017, 3, 14⟩, ⟨2017, 4, 3⟩),
    (⟨2018, 3, 13⟩, ⟨2018, 4, 2⟩), (⟨2019, 3, 19⟩, ⟨2019, 4, 8⟩)]

/-- The row predicate `is_tournament_game` of `add_tournament_flag`: walk
the interval list and return `True` on the first interval whose closed
bounds contain the row's date, `False` if none does. -/
def is_tournament_game (dates : List (PyDate × PyDate)) (d : PyDate) : Bool :=
  match dates with
  | [] => false
  | (s, e) :: rest =>
    if s.le d && d.le e then true else is_tournament_game rest d

/-- The body of `add_tournament_flag`: append a boolean
`is_tournament_game` column computed row-wise against the hardcoded
interval list. A row is a parsed date plus its other column values. -/
def add_tournament_flag (rows : List (PyDate × List ℚ)) :
    List ((PyDate × List ℚ) × Bool) :=
  rows.map fun r => (r, is_tournament_game ncaa_dates r.1)

lemma le_iff_dateLE (a b : PyDate) : PyDate.le a b = true ↔ dateLE a b := by
  unfold PyDate.le dateLE
  by_cases h1 : a.year = b.year
  · by_cases h2 : a.month = b.month
    · simp [h1, h2]
    · simp [h1, h2]
  · simp [h1]

lemma is_tournament_game_iff (dates : List (PyDate × PyDate)) (d : PyDate) :
    is_tournament_game dates d = true ↔
      ∃ p ∈ dates, dateLE p.1 d ∧ dateLE d p.2 := by
  induction dates with
  | nil => simp [is_tournament_game]
  | cons p rest ih =>
    obtain ⟨s, e⟩ := p
    simp only [is_tournament_game]
    by_cases h : (PyDate.le s d && PyDate.le d e) = true
    · rw [if_pos h]
      rcases (show PyDate.le s d = true ∧ PyDate.le d e = true by
        simpa using h) with ⟨h1, h2⟩
      simp only [true_iff]
      exact ⟨(s, e), List.mem_cons_self _ _,
        (le_iff_dateLE s d).mp h1, (le_iff_dateLE d e).mp h2⟩
    · rw [if_neg h, ih]
      constructor
      · rintro ⟨q, hq, hle⟩
        exact ⟨q, List.mem_cons_of_mem _ hq, hle⟩
      · rintro ⟨q, hq, hle1, hle2⟩
        rcases List.mem_cons.mp hq with rfl | hq'
        · exact absurd (show (PyDate.le s d && PyDate.le d e) = true by
            simp [(le_iff_dateLE _ _).mpr hle1, (le_iff_dateLE _ _).mpr hle2]) h
        · exact ⟨q, hq', hle1, hle2⟩

/-- C8. Tag correctness: for any interval list, `is_tournament_game` is
true exactly when the date lies in at least one closed interval (both
endpoints inclusive); `add_tournament_flag` attaches exactly that flag,
computed against the hardcoded windows, to every row; and on the concrete
2010 window a row dated 2010-03-16 is flagged true while a row dated
2010-04-06 is flagged false. -/
theorem tournament_tag_correct :
    (∀ (dates : List (PyDate × PyDate)) (d : PyDate),
        is_tournament_game dates d = true ↔
          ∃ p ∈ dates, dateLE p.1 d ∧ dateLE d p.2) ∧
      (∀ rows : List (PyDate × List ℚ),
          add_tournament_flag rows = rows.map fun r =>
            (r, decide (∃ p ∈ ncaa_dates, dateLE p.1 r.1 ∧ dateLE r.1 p.2))) ∧
      add_tournament_flag [(⟨2010, 3, 16⟩, [])] =
        [((⟨2010, 3, 16⟩, []), true)] ∧
      add_tournament_flag [(⟨2010, 4, 6⟩, [])] =
        [((⟨2010, 4, 6⟩, []), false)] := by
  refine ⟨is_tournament_game_iff, ?_, by decide, by decide⟩
  intro rows
  unfold add_tournament_flag
  apply List.map_congr_left
  intro r _
  have h := is_tournament_game_iff ncaa_dates r.1
  by_cases hb : is_tournament_game ncaa_dates r.1 = true
  · rw [hb, eq_comm, Prod.mk.injEq]
    exact ⟨rfl, decide_eq_true (h.mp hb)⟩
  · rw [Bool.not_eq_true] at hb
    rw [hb, eq_comm, Prod.mk.injEq]
    refine ⟨rfl, decide_eq_false ?_⟩
    intro hex
    rw [← h] at hex
    simp [hb] at hex

/-- The three derived column names `compute_ma` appends for a metric
column. -/
def addSuffixes (c : String) : List String := [c ++ "_sma", c ++ "_cma", c ++ "_ema"]

/-- Column list of a per-team table after `compute_ma`: the original
columns, followed by `<col>_sma`, `<col>_cma`, `<col>_ema` for each
non-identifier column in original order (new pandas columns are appended
in assignment order; the loop iterates over the original column index). -/
def compute_cols (ids cols : List String) : List String :=
  cols ++ (cols.filter fun c => decide (c ∉ ids)).flatMap addSuffixes

/-- Column renaming of one perspective table in `merge_ma`: identifier
columns keep their names, every other column gets the perspective marker
(`"away_"` or `"home_"`) prepended. -/
def renameCols (pre : String) (ids : List String) (cols : List String) : List String :=
  cols.map fun c => if c ∈ ids then c else pre ++ c

/-- Column list of the table returned by `merge_ma`: `pd.merge` on the
identifier columns keeps the left (away) columns and appends the right
(home) columns minus the join keys. -/
def merge_cols (ids cols : List String) : List String :=
  renameCols "away_" ids (compute_cols ids cols) ++
    (renameCols "home_" ids (compute_cols ids cols)).filter fun c => decide (c ∉ ids)

/-- Column list of the full pipeline output: `add_tournament_flag` appends
the boolean `is_tournament_game` column. -/
def pipeline_cols (ids cols : List String) : List String :=
  merge_cols ids cols ++ ["is_tournament_game"]

/-- The column set C9 claims, following the spec's words: identifier
fields, then `home_<m>_{sma,cma,ema}` and `away_<m>_{sma,cma,ema}` for
every metric field `m`, then `is_tournament_game` — and nothing else. -/
def claimed_cols (ids cols : List String) : List String :=
  ids ++
    ((cols.filter fun c => decide (c ∉ ids)).flatMap fun m =>
      ["home_" ++ m ++ "_sma", "home_" ++ m ++ "_cma", "home_" ++ m ++ "_ema"]) ++
    ((cols.filter fun c => decide (c ∉ ids)).flatMap fun m =>
      ["away_" ++ m ++ "_sma", "away_" ++ m ++ "_cma", "away_" ++ m ++ "_ema"]) ++
    ["is_tournament_game"]

/-- The amended column set: the raw (un-averaged) metric columns also
survive the pipeline, prefixed by perspective — for every metric `m` the
output carries `away_<m>` and `home_<m>` alongside the six derived
columns. -/
def amended_cols (ids cols : List String) : List String :=
  ids ++
    ((cols.filter fun c => decide (c ∉ ids)).flatMap fun m =>
      ["away_" ++ m, "away_" ++ (m ++ "_sma"), "away_" ++ (m ++ "_cma"),
        "away_" ++ (m ++ "_ema"), "home_" ++ m, "home_" ++ (m ++ "_sma"),
        "home_" ++ (m ++ "_cma"), "home_" ++ (m ++ "_ema")]) ++
    ["is_tournament_game"]

/-- C9 counterexample. With identifiers `date, home, away` and the single
metric column `pts`, the pipeline's output contains the raw prefixed
column `away_pts`, which the claimed schema does not list: the output
columns are not exactly the claimed set. -/
theorem pipeline_cols_claim_false :
    "away_pts" ∈ pipeline_cols ["date", "home", "away"]
        ["date", "home", "away", "pts"] ∧
      "away_pts" ∉ claimed_cols ["date", "home", "away"]
        ["date", "home", "away", "pts"] := by
  decide

lemma mem_renameCols (pre : String) (ids cc : List String) (c : String) :
    c ∈ renameCols pre ids cc ↔
      (c ∈ ids ∧ c ∈ cc) ∨ ∃ m ∈ cc, m ∉ ids ∧ c = pre ++ m := by
  simp only [renameCols, List.mem_map]
  constructor
  · rintro ⟨c0, hc0, heq⟩
    by_cases h : c0 ∈ ids
    · rw [if_pos h] at heq
      subst heq
      exact Or.inl ⟨h, hc0⟩
    · rw [if_neg h] at heq
      exact Or.inr ⟨c0, hc0, h, heq.symm⟩
  · rintro (⟨h1, h2⟩ | ⟨m, hm, hmn, rfl⟩)
    · exact ⟨c, h2, by rw [if_pos h1]⟩
    · exact ⟨m, hm, by rw [if_neg hmn]⟩

lemma mem_compute_cols (ids cols : List String) (c : String) :
    c ∈ compute_cols ids cols ↔
      c ∈ cols ∨ ∃ m ∈ cols, m ∉ ids ∧
        (c = m ++ "_sma" ∨ c = m ++ "_cma" ∨ c = m ++ "_ema") := by
  simp only [compute_cols, List.mem_append, List.mem_flatMap, List.mem_filter,
    decide_eq_true_eq, addSuffixes, List.mem_cons, List.not_mem_nil, or_false]
  constructor
  · rintro (h | ⟨m, ⟨hm, hmn⟩, hc⟩)
    · exact Or.inl h
    · exact Or.inr ⟨m, hm, hmn, hc⟩
  · rintro (h | ⟨m, hm, hmn, hc⟩)
    · exact Or.inl h
    · exact Or.inr ⟨m, ⟨hm, hmn⟩, hc⟩

/-- C9 amended. For every run of the pipeline whose identifier fields are
actual columns and do not collide with any generated column name, the
output columns are exactly: the identifier fields, the raw metric columns
prefixed by perspective (`away_<m>`, `home_<m>`), the six derived columns
`away_<m>_{sma,cma,ema}` and `home_<m>_{sma,cma,ema}` per metric, and
`is_tournament_game` — stated as a membership equivalence between the
pipeline's column list and the amended schema. -/
theorem pipeline_cols_amended (ids cols : List String)
    (hsub : ∀ c ∈ ids, c ∈ cols)
    (hdisj : ∀ m ∈ cols, m ∉ ids → ∀ d ∈ [m ++ "_sma", m ++ "_cma", m ++ "_ema",
      "home_" ++ m, "home_" ++ (m ++ "_sma"), "home_" ++ (m ++ "_cma"),
      "home_" ++ (m ++ "_ema")], d ∉ ids)
    (c : String) :
    c ∈ pipeline_cols ids cols ↔ c ∈ amended_cols ids cols := by
  have hm1 := mem_renameCols "away_" ids (compute_cols ids cols) c
  have hm2 := mem_renameCols "home_" ids (compute_cols ids cols) c
  simp only [pipeline_cols, merge_cols, amended_cols, List.mem_append,
    List.mem_filter, decide_eq_true_eq, List.mem_singleton, List.mem_flatMap,
    List.mem_cons, List.not_mem_nil, or_false]
  constructor
  · rintro ((h | ⟨h, hnid⟩) | rfl)
    · rcases hm1.mp h with ⟨hid, _⟩ | ⟨m, hmCC, hmn, rfl⟩
      · exact Or.inl (Or.inl hid)
      · rcases (mem_compute_cols ids cols m).mp hmCC with hmc | ⟨m0, hm0, hm0n, hc⟩
        · exact Or.inl (Or.inr ⟨m, ⟨hmc, hmn⟩, by tauto⟩)
        · refine Or.inl (Or.inr ⟨m0, ⟨hm0, hm0n⟩, ?_⟩)
          rcases hc with rfl | rfl | rfl <;> tauto
    · rcases hm2.mp h with ⟨hid, _⟩ | ⟨m, hmCC, hmn, rfl⟩
      · exact absurd hid hnid
      · rcases (mem_compute_cols ids cols m).mp hmCC with hmc | ⟨m0, hm0, hm0n, hc⟩
        · exact Or.inl (Or.inr ⟨m, ⟨hmc, hmn⟩, by tauto⟩)
        · refine Or.inl (Or.inr ⟨m0, ⟨hm0, hm0n⟩, ?_⟩)
          rcases hc with rfl | rfl | rfl <;> tauto
    · exact Or.inr rfl
  · rintro ((hid | ⟨m, ⟨hm, hmn⟩, hc⟩) | rfl)
    · refine Or.inl (Or.inl (hm1.mpr (Or.inl ⟨hid, ?_⟩)))
      exact (mem_compute_cols ids cols c).mpr (Or.inl (hsub c hid))
    · have hCCm : m ∈ compute_cols ids cols :=
        (mem_compute_cols ids cols m).mpr (Or.inl hm)
      have hCCs : (m ++ "_sma") ∈ compute_cols ids cols :=
        (mem_compute_cols ids cols _).mpr (Or.inr ⟨m, hm, hmn, Or.inl rfl⟩)
      have hCCc : (m ++ "_cma") ∈ compute_cols ids cols :=
        (mem_compute_cols ids cols _).mpr (Or.inr ⟨m, hm, hmn, Or.inr (Or.inl rfl)⟩)
      have hCCe : (m ++ "_ema") ∈ compute_cols ids cols :=
        (mem_compute_cols ids cols _).mpr (Or.inr ⟨m, hm, hmn, Or.inr (Or.inr rfl)⟩)
      have hd := hdisj m hm hmn
      rcases hc with rfl | rfl | rfl | rfl | rfl | rfl | rfl | rfl
      · exact Or.inl (Or.inl (hm1.mpr (Or.inr ⟨m, hCCm, hmn, rfl⟩)))
      · exact Or.inl (Or.inl (hm1.mpr (Or.inr ⟨_, hCCs, hd _ (by simp), rfl⟩)))
      · exact Or.inl (Or.inl (hm1.mpr (Or.inr ⟨_, hCCc, hd _ (by simp), rfl⟩)))
      · exact Or.inl (Or.inl (hm1.mpr (Or.inr ⟨_, hCCe, hd _ (by simp), rfl⟩)))
      · exact Or.inl (Or.inr ⟨hm2.mpr (Or.inr ⟨m, hCCm, hmn, rfl⟩),
          hd _ (by simp)⟩)
      · exact Or.inl (Or.inr ⟨hm2.mpr (Or.inr ⟨_, hCCs, hd _ (by simp), rfl⟩),
          hd _ (by simp)⟩)
      · exact Or.inl (Or.inr ⟨hm2.mpr (Or.inr ⟨_, hCCc, hd _ (by simp), rfl⟩),
          hd _ (by simp)⟩)
      · exact Or.inl (Or.inr ⟨hm2.mpr (Or.inr ⟨_, hCCe, hd _ (by simp), rfl⟩),
          hd _ (by simp)⟩)
    · exact Or.inr rfl

/-- Witness for the amended C9 at the concrete run with identifiers
`date, home, away` and metric column `pts`, instantiated at the column
name `away_pts`. -/
theorem pipeline_cols_amended_witness :
    "away_pts" ∈ pipeline_cols ["date", "home", "away"]
        ["date", "home", "away", "pts"] ↔
      "away_pts" ∈ amended_cols ["date", "home", "away"]
        ["date", "home", "away", "pts"] :=
  pipeline_cols_amended ["date", "home", "away"] ["date", "home", "away", "pts"]
    (by decide) (by decide) "away_pts"

end MA
